import Mathlib

/-!
Shallow embedding of `src/turtle_board.rs` (PerfectTurtleRust).

The Rust program keeps a `HashSet<Edge>` of unit lattice segments, a
`lazy_bounds` flag and an `Option<Bounds>` cache.  The hash set is modelled
as a duplicate-free `List Edge` with insert-if-absent (`hsInsert`), which is
exactly the observable behaviour of `HashSet::insert`; the iteration order
of the hash set is unspecified in the source, and every fold the source
performs over it (componentwise min/max) is order-insensitive, so the list
view is faithful.  Rust panics (`expect("cannot find bounds for empty
board")`) are modelled by `Option.none` results.
-/

namespace TurtleSpec

/-- Glyph constants from the source file. -/
def DOT : String := "+"

def DASH_VER : String := "|"

def BLANK_VER : String := " "

def GAP : String := "    "

def DASH_HOR : String := "----"

def BLANK_HOR : String := "    "

/-- The `Bounds` struct: extreme lattice coordinates of a rectangle. -/
@[ext] structure Bounds where
  min_x : Int
  min_y : Int
  max_x : Int
  max_y : Int
deriving DecidableEq

/-- `Bounds::min_bound`: componentwise min/max over a slice of bounds.  The
source calls `.expect("cannot find bounds for empty board")` on each
component, i.e. it panics on the empty slice; the panic is modelled by
`none`. -/
def Bounds.min_bound (bounds : List Bounds) : Option Bounds := do
  let mnx ← (bounds.map (fun b => b.min_x)).min?
  let mny ← (bounds.map (fun b => b.min_y)).min?
  let mxx ← (bounds.map (fun b => b.max_x)).max?
  let mxy ← (bounds.map (fun b => b.max_y)).max?
  pure { min_x := mnx, min_y := mny, max_x := mxx, max_y := mxy }

/-- `Bounds::min_bound_2_bounds`: smallest rectangle containing both. -/
def Bounds.min_bound_2_bounds (a b : Bounds) : Bounds :=
  { min_x := min a.min_x b.min_x
    min_y := min a.min_y b.min_y
    max_x := max a.max_x b.max_x
    max_y := max a.max_y b.max_y }

/-- The `Edge` enum: `Vertical(x, y)` runs from `(x,y)` to `(x,y+1)`,
`Horizontal(x, y)` runs from `(x,y)` to `(x+1,y)`. -/
inductive Edge where
  | Vertical (x y : Int)
  | Horizontal (x y : Int)
deriving DecidableEq

/-- `Edge::bounds`: the local bounding rectangle of a single edge. -/
def Edge.bounds : Edge → Bounds
  | .Vertical x y => { min_x := x, min_y := y, max_x := x, max_y := y + 1 }
  | .Horizontal x y => { min_x := x, min_y := y, max_x := x + 1, max_y := y }

/-- `HashSet::insert`: add the element unless it is already present. -/
def hsInsert (e : Edge) (l : List Edge) : List Edge :=
  if e ∈ l then l else e :: l

/-- Rust's half-open `Range<i32>`; the field `stop` models the source's
`end` (a Lean keyword). -/
structure Range where
  start : Int
  stop : Int
deriving DecidableEq

/-- The integers of the half-open range `[start, stop)`, in iteration
order. -/
def rangeList (start stop : Int) : List Int :=
  (List.range (stop - start).toNat).map (fun (i : Nat) => start + (i : Int))

/-- The `TurtleBoard` struct. -/
structure TurtleBoard where
  edges : List Edge
  lazy_bounds : Bool
  bounds : Option Bounds
deriving DecidableEq

/-- `TurtleBoard::new`. -/
def TurtleBoard.new (lazy_bounds : Bool) : TurtleBoard :=
  { edges := [], lazy_bounds := lazy_bounds, bounds := none }

/-- `TurtleBoard::new_lazy`. -/
def TurtleBoard.new_lazy : TurtleBoard := TurtleBoard.new true

/-- `TurtleBoard::new_strict`. -/
def TurtleBoard.new_strict : TurtleBoard := TurtleBoard.new false

/-- `TurtleBoard::compute_bounds`: collect every edge's local bounds and
fold with `min_bound`.  `none` models the panic on an empty board. -/
def TurtleBoard.compute_bounds (b : TurtleBoard) : Option Bounds :=
  Bounds.min_bound (b.edges.map Edge.bounds)

/-- `TurtleBoard::bounds(&mut self)`: return the cached rectangle, first
computing and storing it when absent.  The returned pair is (result, board
after the call); `none` models the panic propagated from `compute_bounds`
on an empty board. -/
def TurtleBoard.boundsMut (b : TurtleBoard) : Option (Bounds × TurtleBoard) :=
  match b.bounds with
  | some r => some (r, b)
  | none => b.compute_bounds.map (fun r => (r, { b with bounds := some r }))

/-- `TurtleBoard::bounds_uncached`. -/
def TurtleBoard.bounds_uncached (b : TurtleBoard) : Option Bounds :=
  match b.bounds with
  | some r => some r
  | none => b.compute_bounds

/-- `TurtleBoard::expand_to_fit`.  The source assigns `self.bounds` the
value of a three-way conditional; in the third branch it calls the mutating
`self.bounds()` (which can only write to the `bounds` field, a write that is
immediately overwritten by this assignment), so only the `bounds` field of
the board changes.  In that branch `self.edges` is nonempty, so the inner
call cannot panic; the `none` fallback below is unreachable. -/
def TurtleBoard.expand_to_fit (b : TurtleBoard) (bounds_to_fit : Bounds) : TurtleBoard :=
  { b with bounds :=
      if b.lazy_bounds then
        none
      else if b.edges = [] then
        some bounds_to_fit
      else
        match b.boundsMut with
        | some (r, _) => some (Bounds.min_bound_2_bounds bounds_to_fit r)
        | none => none }

/-- `TurtleBoard::add_vertical_line`. -/
def TurtleBoard.add_vertical_line (b : TurtleBoard) (x : Int) (ys : Range) : TurtleBoard :=
  let b1 := b.expand_to_fit
    { min_x := x, max_x := x, min_y := ys.start, max_y := ys.stop }
  { b1 with edges :=
      (rangeList ys.start ys.stop).foldl (fun s y => hsInsert (Edge.Vertical x y) s) b1.edges }

/-- `TurtleBoard::add_horizontal_line`. -/
def TurtleBoard.add_horizontal_line (b : TurtleBoard) (xs : Range) (y : Int) : TurtleBoard :=
  let b1 := b.expand_to_fit
    { min_y := y, max_y := y, min_x := xs.start, max_x := xs.stop }
  { b1 with edges :=
      (rangeList xs.start xs.stop).foldl (fun s x => hsInsert (Edge.Horizontal x y) s) b1.edges }

/-- `TurtleBoard::contains_vertical_line`: the first range element whose
edge is missing, if any, decides the answer. -/
def TurtleBoard.contains_vertical_line (b : TurtleBoard) (x : Int) (ys : Range) : Bool :=
  (((rangeList ys.start ys.stop).filter
      (fun y => !(decide (Edge.Vertical x y ∈ b.edges)))).head?).isNone

/-- `TurtleBoard::contains_horizontal_line`. -/
def TurtleBoard.contains_horizontal_line (b : TurtleBoard) (xs : Range) (y : Int) : Bool :=
  (((rangeList xs.start xs.stop).filter
      (fun x => !(decide (Edge.Horizontal x y ∈ b.edges)))).head?).isNone

/-- The `draw_line_hor` closure of `Display::fmt`. -/
def draw_line_hor (b : TurtleBoard) (bd : Bounds) (y : Int) : String :=
  DOT ++ String.join ((rangeList bd.min_x bd.max_x).map
    (fun x => (if Edge.Horizontal x y ∈ b.edges then DASH_HOR else BLANK_HOR) ++ DOT))

/-- The `add_ver` closure of `Display::fmt`. -/
def add_ver (b : TurtleBoard) (y x : Int) : String :=
  if Edge.Vertical x y ∈ b.edges then DASH_VER else BLANK_VER

/-- The `draw_line_ver` closure of `Display::fmt`. -/
def draw_line_ver (b : TurtleBoard) (bd : Bounds) (y : Int) : String :=
  String.join ((rangeList bd.min_x bd.max_x).map (fun x => add_ver b y x ++ GAP))
    ++ add_ver b y bd.max_x

/-- `Display::fmt` for `TurtleBoard`: top node line at `max_y`, then for
each `y` from `max_y - 1` down to `min_y` a link line and a node line.
`none` models the panic propagated from `bounds_uncached` on an empty
board. -/
def TurtleBoard.fmtString (b : TurtleBoard) : Option String :=
  b.bounds_uncached.map (fun bd =>
    draw_line_hor b bd bd.max_y ++
    String.join (((rangeList bd.min_y bd.max_y).reverse).map
      (fun y => "\n" ++ draw_line_ver b bd y ++ "\n" ++ draw_line_hor b bd y)))

/-- A single public insertion call. -/
inductive Op where
  | addH (xs : Range) (y : Int)
  | addV (x : Int) (ys : Range)
deriving DecidableEq

/-- Apply one insertion call to a board. -/
def applyOp (b : TurtleBoard) : Op → TurtleBoard
  | .addH xs y => b.add_horizontal_line xs y
  | .addV x ys => b.add_vertical_line x ys

/-- Apply a sequence of insertion calls, left to right. -/
def applyOps (b : TurtleBoard) (ops : List Op) : TurtleBoard :=
  ops.foldl applyOp b

/-- The call's range is nonempty (it inserts at least one edge). -/
def opNonempty (op : Op) : Prop :=
  match op with
  | .addH xs _ => xs.start < xs.stop
  | .addV _ ys => ys.start < ys.stop

instance (op : Op) : Decidable (opNonempty op) :=
  match op with
  | .addH xs _ => inferInstanceAs (Decidable (xs.start < xs.stop))
  | .addV _ ys => inferInstanceAs (Decidable (ys.start < ys.stop))

/-- The call's range is empty (start ≥ end): it inserts no edge. -/
def opEmpty (op : Op) : Prop :=
  match op with
  | .addH xs _ => xs.stop ≤ xs.start
  | .addV _ ys => ys.stop ≤ ys.start

instance (op : Op) : Decidable (opEmpty op) :=
  match op with
  | .addH xs _ => inferInstanceAs (Decidable (xs.stop ≤ xs.start))
  | .addV _ ys => inferInstanceAs (Decidable (ys.stop ≤ ys.start))

/-- The rectangle spanned by a call's endpoint coordinates — exactly the
`bounds_to_fit` argument the call passes to `expand_to_fit`. -/
def opRect : Op → Bounds
  | .addH xs y => { min_x := xs.start, min_y := y, max_x := xs.stop, max_y := y }
  | .addV x ys => { min_x := x, min_y := ys.start, max_x := x, max_y := ys.stop }

/-- The edges a call inserts, in iteration order. -/
def opRun : Op → List Edge
  | .addH xs y => (rangeList xs.start xs.stop).map (fun x => Edge.Horizontal x y)
  | .addV x ys => (rangeList ys.start ys.stop).map (fun yy => Edge.Vertical x yy)

/-- Rectangles ordered by containment; `min_bound_2_bounds` is the join. -/
instance : SemilatticeSup Bounds where
  le a b := b.min_x ≤ a.min_x ∧ b.min_y ≤ a.min_y ∧ a.max_x ≤ b.max_x ∧ a.max_y ≤ b.max_y
  le_refl a := ⟨le_refl _, le_refl _, le_refl _, le_refl _⟩
  le_trans a b c h1 h2 :=
    ⟨h2.1.trans h1.1, h2.2.1.trans h1.2.1, h1.2.2.1.trans h2.2.2.1, h1.2.2.2.trans h2.2.2.2⟩
  le_antisymm a b h1 h2 := by
    obtain ⟨p1, p2, p3, p4⟩ := h1
    obtain ⟨q1, q2, q3, q4⟩ := h2
    ext <;> omega
  sup := Bounds.min_bound_2_bounds
  le_sup_left a b := ⟨min_le_left _ _, min_le_left _ _, le_max_left _ _, le_max_left _ _⟩
  le_sup_right a b := ⟨min_le_right _ _, min_le_right _ _, le_max_right _ _, le_max_right _ _⟩
  sup_le a b c h1 h2 :=
    ⟨le_min h1.1 h2.1, le_min h1.2.1 h2.2.1, max_le h1.2.2.1 h2.2.2.1, max_le h1.2.2.2 h2.2.2.2⟩

/-- Join of a list of rectangles, `⊥` for the empty list. -/
def listBoundsSup (l : List Bounds) : WithBot Bounds :=
  l.foldr (fun x acc => (x : WithBot Bounds) ⊔ acc) ⊥

/-- Join of the local bounds of a list of edges. -/
def edgesSup (l : List Edge) : WithBot Bounds :=
  listBoundsSup (l.map Edge.bounds)

/-- The rectangle contains the local bounds of the edge. -/
def encloses (r : Bounds) (e : Edge) : Prop :=
  r.min_x ≤ (Edge.bounds e).min_x ∧ r.min_y ≤ (Edge.bounds e).min_y ∧
    (Edge.bounds e).max_x ≤ r.max_x ∧ (Edge.bounds e).max_y ≤ r.max_y

instance (r : Bounds) (e : Edge) : Decidable (encloses r e) :=
  inferInstanceAs (Decidable (r.min_x ≤ (Edge.bounds e).min_x ∧
    r.min_y ≤ (Edge.bounds e).min_y ∧
    (Edge.bounds e).max_x ≤ r.max_x ∧ (Edge.bounds e).max_y ≤ r.max_y))

/-- The spec's minimal bounding rectangle: it encloses every edge and each
of its four components is attained by some edge's local bounds (i.e. it is
the componentwise min/max over every edge's local bounds). -/
def isMinimalRect (l : List Edge) (r : Bounds) : Prop :=
  (∀ e ∈ l, encloses r e) ∧
    (∃ e ∈ l, (Edge.bounds e).min_x = r.min_x) ∧
    (∃ e ∈ l, (Edge.bounds e).min_y = r.min_y) ∧
    (∃ e ∈ l, (Edge.bounds e).max_x = r.max_x) ∧
    (∃ e ∈ l, (Edge.bounds e).max_y = r.max_y)

instance (l : List Edge) (r : Bounds) : Decidable (isMinimalRect l r) :=
  inferInstanceAs (Decidable ((∀ e ∈ l, encloses r e) ∧
    (∃ e ∈ l, (Edge.bounds e).min_x = r.min_x) ∧
    (∃ e ∈ l, (Edge.bounds e).min_y = r.min_y) ∧
    (∃ e ∈ l, (Edge.bounds e).max_x = r.max_x) ∧
    (∃ e ∈ l, (Edge.bounds e).max_y = r.max_y)))

/-! ### Basic lemmas -/

theorem rangeList_eq_nil {s e : Int} (h : e ≤ s) : rangeList s e = [] := by
  unfold rangeList
  have h0 : (e - s).toNat = 0 := by omega
  rw [h0]
  rfl

theorem mem_rangeList {s e i : Int} : i ∈ rangeList s e ↔ s ≤ i ∧ i < e := by
  unfold rangeList
  simp only [List.mem_map, List.mem_range]
  constructor
  · rintro ⟨a, ha, rfl⟩
    omega
  · intro h
    exact ⟨(i - s).toNat, by omega, by omega⟩

theorem mem_hsInsert {a e : Edge} {l : List Edge} : a ∈ hsInsert e l ↔ a = e ∨ a ∈ l := by
  unfold hsInsert
  by_cases h : e ∈ l
  · rw [if_pos h]
    constructor
    · exact Or.inr
    · rintro (rfl | h2)
      · exact h
      · exact h2
  · rw [if_neg h]
    exact List.mem_cons

theorem expand_to_fit_edges (b : TurtleBoard) (r : Bounds) :
    (b.expand_to_fit r).edges = b.edges := rfl

theorem expand_to_fit_lazy (b : TurtleBoard) (r : Bounds) :
    (b.expand_to_fit r).lazy_bounds = b.lazy_bounds := rfl

theorem add_horizontal_line_edges (b : TurtleBoard) (xs : Range) (y : Int) :
    (b.add_horizontal_line xs y).edges
      = ((rangeList xs.start xs.stop).map (fun x => Edge.Horizontal x y)).foldl
          (fun s e => hsInsert e s) b.edges := by
  rw [List.foldl_map]
  rfl

theorem add_vertical_line_edges (b : TurtleBoard) (x : Int) (ys : Range) :
    (b.add_vertical_line x ys).edges
      = ((rangeList ys.start ys.stop).map (fun yy => Edge.Vertical x yy)).foldl
          (fun s e => hsInsert e s) b.edges := by
  rw [List.foldl_map]
  rfl

theorem add_horizontal_line_lazy (b : TurtleBoard) (xs : Range) (y : Int) :
    (b.add_horizontal_line xs y).lazy_bounds = b.lazy_bounds := rfl

theorem add_vertical_line_lazy (b : TurtleBoard) (x : Int) (ys : Range) :
    (b.add_vertical_line x ys).lazy_bounds = b.lazy_bounds := rfl

theorem add_horizontal_line_bounds (b : TurtleBoard) (xs : Range) (y : Int) :
    (b.add_horizontal_line xs y).bounds
      = (b.expand_to_fit { min_y := y, max_y := y, min_x := xs.start, max_x := xs.stop }).bounds :=
  rfl

theorem add_vertical_line_bounds (b : TurtleBoard) (x : Int) (ys : Range) :
    (b.add_vertical_line x ys).bounds
      = (b.expand_to_fit { min_x := x, max_x := x, min_y := ys.start, max_y := ys.stop }).bounds :=
  rfl

theorem mem_foldl_hsInsert_of_mem_init {a : Edge} :
    ∀ (l : List Edge) (s : List Edge), a ∈ s → a ∈ l.foldl (fun t e => hsInsert e t) s := by
  intro l
  induction l with
  | nil => intro s h; exact h
  | cons c l ih =>
      intro s h
      exact ih (hsInsert c s) (mem_hsInsert.mpr (Or.inr h))

theorem mem_foldl_hsInsert_of_mem_list {a : Edge} :
    ∀ (l : List Edge) (s : List Edge), a ∈ l → a ∈ l.foldl (fun t e => hsInsert e t) s := by
  intro l
  induction l with
  | nil => intro s h; cases h
  | cons c l ih =>
      intro s h
      rcases List.mem_cons.mp h with rfl | h2
      · exact mem_foldl_hsInsert_of_mem_init l (hsInsert a s) (mem_hsInsert.mpr (Or.inl rfl))
      · exact ih (hsInsert c s) h2

theorem foldl_hsInsert_of_subset :
    ∀ (l : List Edge) (s : List Edge), (∀ a ∈ l, a ∈ s) → l.foldl (fun t e => hsInsert e t) s = s := by
  intro l
  induction l with
  | nil => intro s _; rfl
  | cons c l ih =>
      intro s h
      have hc : c ∈ s := h c (List.mem_cons_self c l)
      have hstep : hsInsert c s = s := by unfold hsInsert; rw [if_pos hc]
      rw [List.foldl_cons, hstep]
      exact ih s (fun a ha => h a (List.mem_cons_of_mem c ha))

/-! ### The join semilattice view of `min_bound` -/

theorem Bounds.sup_def (a b : Bounds) : a ⊔ b = Bounds.min_bound_2_bounds a b := rfl

theorem rangeList_cons {s e : Int} (h : s < e) : rangeList s e = s :: rangeList (s + 1) e := by
  unfold rangeList
  have h1 : (e - s).toNat = (e - (s + 1)).toNat + 1 := by omega
  rw [h1, List.range_succ_eq_map, List.map_cons, List.map_map]
  have hf : ((fun (i : Nat) => s + (i : Int)) ∘ Nat.succ)
      = (fun (i : Nat) => (s + 1) + (i : Int)) := by
    funext i
    simp only [Function.comp_apply]
    push_cast
    ring
  rw [hf]
  norm_num

theorem min_bound_nil : Bounds.min_bound [] = none := rfl

theorem min_bound_cons (a : Bounds) (l : List Bounds) :
    Bounds.min_bound (a :: l)
      = some ((Bounds.min_bound l).elim a (Bounds.min_bound_2_bounds a)) := by
  cases l with
  | nil => rfl
  | cons c l =>
      unfold Bounds.min_bound
      simp only [List.map_cons, List.min?_cons, List.max?_cons, Option.bind_eq_bind,
        Option.some_bind, Option.elim_some]
      rfl

theorem listBoundsSup_nil : listBoundsSup [] = ⊥ := rfl

theorem listBoundsSup_cons (a : Bounds) (l : List Bounds) :
    listBoundsSup (a :: l) = (a : WithBot Bounds) ⊔ listBoundsSup l := rfl

theorem min_bound_eq_listBoundsSup : ∀ l : List Bounds,
    Bounds.min_bound l = listBoundsSup l := by
  intro l
  induction l with
  | nil => rfl
  | cons a l ih =>
      rw [min_bound_cons, listBoundsSup_cons]
      cases h : Bounds.min_bound l with
      | none =>
          have hb : listBoundsSup l = (⊥ : WithBot Bounds) := ih.symm.trans h
          rw [hb, sup_bot_eq]
          rfl
      | some r =>
          have hb : listBoundsSup l = ((r : Bounds) : WithBot Bounds) := ih.symm.trans h
          rw [hb, ← WithBot.coe_sup]
          rfl

theorem compute_bounds_eq_edgesSup (b : TurtleBoard) :
    b.compute_bounds = edgesSup b.edges :=
  min_bound_eq_listBoundsSup _

theorem edgesSup_nil : edgesSup [] = ⊥ := rfl

theorem edgesSup_cons (e : Edge) (l : List Edge) :
    edgesSup (e :: l) = (Edge.bounds e : WithBot Bounds) ⊔ edgesSup l := rfl

theorem le_edgesSup_of_mem {e : Edge} : ∀ {l : List Edge}, e ∈ l →
    (Edge.bounds e : WithBot Bounds) ≤ edgesSup l := by
  intro l
  induction l with
  | nil => intro h; cases h
  | cons c l ih =>
      intro h
      rcases List.mem_cons.mp h with rfl | h2
      · rw [edgesSup_cons]; exact le_sup_left
      · rw [edgesSup_cons]; exact le_sup_of_le_right (ih h2)

theorem edgesSup_hsInsert (e : Edge) (l : List Edge) :
    edgesSup (hsInsert e l) = (Edge.bounds e : WithBot Bounds) ⊔ edgesSup l := by
  unfold hsInsert
  by_cases h : e ∈ l
  · rw [if_pos h]
    exact (sup_eq_right.mpr (le_edgesSup_of_mem h)).symm
  · rw [if_neg h, edgesSup_cons]

theorem edgesSup_foldl_hsInsert : ∀ (l : List Edge) (s : List Edge),
    edgesSup (l.foldl (fun t e => hsInsert e t) s) = edgesSup l ⊔ edgesSup s := by
  intro l
  induction l with
  | nil =>
      intro s
      rw [List.foldl_nil, edgesSup_nil, bot_sup_eq]
  | cons c l ih =>
      intro s
      rw [List.foldl_cons, ih, edgesSup_hsInsert, edgesSup_cons]
      ac_rfl

theorem edgesSup_eq_bot_iff {l : List Edge} : edgesSup l = ⊥ ↔ l = [] := by
  cases l with
  | nil => simp [edgesSup_nil]
  | cons c l =>
      constructor
      · intro h
        rw [edgesSup_cons] at h
        exact absurd (sup_eq_bot_iff.mp h).1 WithBot.coe_ne_bot
      · intro h
        exact (List.cons_ne_nil c l h).elim

theorem hRun_edgesSup_aux (y : Int) : ∀ (n : Nat) (s : Int), 0 < n →
    edgesSup ((rangeList s (s + (n : Int))).map (fun x => Edge.Horizontal x y))
      = (({ min_x := s, min_y := y, max_x := s + (n : Int), max_y := y } : Bounds) :
          WithBot Bounds) := by
  intro n
  induction n with
  | zero => intro s h; exact absurd h (lt_irrefl 0)
  | succ n ih =>
      intro s _
      have hcons : rangeList s (s + ((n + 1 : Nat) : Int))
          = s :: rangeList (s + 1) (s + ((n + 1 : Nat) : Int)) :=
        rangeList_cons (by push_cast; omega)
      rw [hcons, List.map_cons, edgesSup_cons]
      rcases Nat.eq_zero_or_pos n with rfl | hn
      · have hnil : rangeList (s + 1) (s + ((0 + 1 : Nat) : Int)) = [] :=
          rangeList_eq_nil (by push_cast; omega)
        rw [hnil, List.map_nil, edgesSup_nil, sup_bot_eq]
        refine congrArg _ ?_
        ext <;> simp [Edge.bounds]
      · have heq : s + ((n + 1 : Nat) : Int) = (s + 1) + (n : Int) := by push_cast; ring
        rw [heq, ih (s + 1) hn, ← WithBot.coe_sup]
        refine congrArg _ ?_
        have h0 : (0 : Int) ≤ (n : Int) := Int.natCast_nonneg n
        ext <;> simp [Edge.bounds, Bounds.sup_def, Bounds.min_bound_2_bounds]

theorem vRun_edgesSup_aux (x : Int) : ∀ (n : Nat) (s : Int), 0 < n →
    edgesSup ((rangeList s (s + (n : Int))).map (fun yy => Edge.Vertical x yy))
      = (({ min_x := x, min_y := s, max_x := x, max_y := s + (n : Int) } : Bounds) :
          WithBot Bounds) := by
  intro n
  induction n with
  | zero => intro s h; exact absurd h (lt_irrefl 0)
  | succ n ih =>
      intro s _
      have hcons : rangeList s (s + ((n + 1 : Nat) : Int))
          = s :: rangeList (s + 1) (s + ((n + 1 : Nat) : Int)) :=
        rangeList_cons (by push_cast; omega)
      rw [hcons, List.map_cons, edgesSup_cons]
      rcases Nat.eq_zero_or_pos n with rfl | hn
      · have hnil : rangeList (s + 1) (s + ((0 + 1 : Nat) : Int)) = [] :=
          rangeList_eq_nil (by push_cast; omega)
        rw [hnil, List.map_nil, edgesSup_nil, sup_bot_eq]
        refine congrArg _ ?_
        ext <;> simp [Edge.bounds]
      · have heq : s + ((n + 1 : Nat) : Int) = (s + 1) + (n : Int) := by push_cast; ring
        rw [heq, ih (s + 1) hn, ← WithBot.coe_sup]
        refine congrArg _ ?_
        have h0 : (0 : Int) ≤ (n : Int) := Int.natCast_nonneg n
        ext <;> simp [Edge.bounds, Bounds.sup_def, Bounds.min_bound_2_bounds]

theorem opRun_edgesSup {op : Op} (h : opNonempty op) :
    edgesSup (opRun op) = ((opRect op : Bounds) : WithBot Bounds) := by
  cases op with
  | addH xs y =>
      have h2 : xs.start < xs.stop := h
      obtain ⟨n, hn, he⟩ : ∃ n : Nat, 0 < n ∧ xs.stop = xs.start + (n : Int) :=
        ⟨(xs.stop - xs.start).toNat, by omega, by omega⟩
      show edgesSup ((rangeList xs.start xs.stop).map (fun x => Edge.Horizontal x y))
        = (({ min_x := xs.start, min_y := y, max_x := xs.stop, max_y := y } : Bounds) :
            WithBot Bounds)
      rw [he]
      exact hRun_edgesSup_aux y n xs.start hn
  | addV x ys =>
      have h2 : ys.start < ys.stop := h
      obtain ⟨n, hn, he⟩ : ∃ n : Nat, 0 < n ∧ ys.stop = ys.start + (n : Int) :=
        ⟨(ys.stop - ys.start).toNat, by omega, by omega⟩
      show edgesSup ((rangeList ys.start ys.stop).map (fun yy => Edge.Vertical x yy))
        = (({ min_x := x, min_y := ys.start, max_x := x, max_y := ys.stop } : Bounds) :
            WithBot Bounds)
      rw [he]
      exact vRun_edgesSup_aux x n ys.start hn

theorem opRun_eq_nil {op : Op} (h : opEmpty op) : opRun op = [] := by
  cases op with
  | addH xs y =>
      show (rangeList xs.start xs.stop).map _ = []
      rw [rangeList_eq_nil h, List.map_nil]
  | addV x ys =>
      show (rangeList ys.start ys.stop).map _ = []
      rw [rangeList_eq_nil h, List.map_nil]

/-! ### Claim theorems: the easy cases -/

/-- C5: on a freshly constructed grid of either mode, with no insertions,
the cached-path bounds query, the fresh bounds computation and the render
function all fail with the empty-grid error (modelled by `none`): no
default rectangle and no rendered text are produced. -/
theorem empty_grid_bounds_and_render_fail :
    TurtleBoard.new_strict.boundsMut = none
    ∧ TurtleBoard.new_strict.bounds_uncached = none
    ∧ TurtleBoard.new_strict.compute_bounds = none
    ∧ TurtleBoard.new_strict.fmtString = none
    ∧ TurtleBoard.new_lazy.boundsMut = none
    ∧ TurtleBoard.new_lazy.bounds_uncached = none
    ∧ TurtleBoard.new_lazy.compute_bounds = none
    ∧ TurtleBoard.new_lazy.fmtString = none := by
  decide

/-- C7: insertion is idempotent — performing the same insertion call twice
in a row yields exactly the same edge set as performing it once, for both
horizontal and vertical runs. -/
theorem add_line_idempotent_edges (b : TurtleBoard) (xs ys : Range) (x y : Int) :
    ((b.add_horizontal_line xs y).add_horizontal_line xs y).edges
        = (b.add_horizontal_line xs y).edges
    ∧ ((b.add_vertical_line x ys).add_vertical_line x ys).edges
        = (b.add_vertical_line x ys).edges := by
  constructor
  · rw [add_horizontal_line_edges (b.add_horizontal_line xs y),
      add_horizontal_line_edges b]
    exact foldl_hsInsert_of_subset _ _
      (fun a ha => mem_foldl_hsInsert_of_mem_list _ _ ha)
  · rw [add_vertical_line_edges (b.add_vertical_line x ys),
      add_vertical_line_edges b]
    exact foldl_hsInsert_of_subset _ _
      (fun a ha => mem_foldl_hsInsert_of_mem_list _ _ ha)

/-- C8: a grid built by inserting the single horizontal run from `x = 1` to
`x = 2` at `y = 7` (in either mode) renders as exactly node marker,
present-horizontal glyph, node marker, and that output contains no newline
and no vertical-glyph characters (so there is no link line). -/
theorem single_run_minimal_render :
    (TurtleBoard.new_strict.add_horizontal_line ⟨1, 2⟩ 7).fmtString
        = some (DOT ++ DASH_HOR ++ DOT)
    ∧ (TurtleBoard.new_lazy.add_horizontal_line ⟨1, 2⟩ 7).fmtString
        = some (DOT ++ DASH_HOR ++ DOT)
    ∧ ((DOT ++ DASH_HOR ++ DOT).toList.all
        (fun c => c ≠ '\n' ∧ c ≠ '|' ∧ c ≠ ' ')) = true := by
  decide

/-- C9: on a fresh strict grid, inserting the horizontal run over
`[-3, 5)` at `y = 2` and then the vertical run at `x = 3` over `[-12, 19)`
makes the bounds query report exactly
`min_x = -3, min_y = -12, max_x = 5, max_y = 19`. -/
theorem folding_correctness_concrete :
    ((TurtleBoard.new_strict.add_horizontal_line ⟨-3, 5⟩ 2).add_vertical_line
        3 ⟨-12, 19⟩).boundsMut.map (fun p => p.1)
      = some { min_x := -3, min_y := -12, max_x := 5, max_y := 19 } := by
  decide

/-- C1 counterexample: inserting the empty horizontal run `[0, 0)` at
`y = 0` into a fresh strict grid changes the cached bounding rectangle
(from `none` to a degenerate rectangle), so the grid state is not left
unchanged. -/
theorem empty_range_insert_changes_cache :
    (TurtleBoard.new_strict.add_horizontal_line ⟨0, 0⟩ 0).bounds
      ≠ TurtleBoard.new_strict.bounds := by
  decide

/-- C1 amended: an empty-range insertion (start ≥ end) adds no edges,
leaves the mode flag unchanged and causes no error; the cached bounding
rectangle, however, may be rewritten by the call. -/
theorem empty_range_insert_preserves_edges_and_mode (b : TurtleBoard) (x y : Int)
    (xs ys : Range) (hxs : xs.stop ≤ xs.start) (hys : ys.stop ≤ ys.start) :
    (b.add_horizontal_line xs y).edges = b.edges
    ∧ (b.add_horizontal_line xs y).lazy_bounds = b.lazy_bounds
    ∧ (b.add_vertical_line x ys).edges = b.edges
    ∧ (b.add_vertical_line x ys).lazy_bounds = b.lazy_bounds := by
  refine ⟨?_, rfl, ?_, rfl⟩
  · rw [add_horizontal_line_edges, rangeList_eq_nil hxs]
    rfl
  · rw [add_vertical_line_edges, rangeList_eq_nil hys]
    rfl

/-- Witness for the amended C1 theorem at a concrete empty-range input. -/
theorem empty_range_insert_preserves_edges_and_mode_witness :
    ((Range.mk 5 5).stop ≤ (Range.mk 5 5).start)
    ∧ ((Range.mk 3 3).stop ≤ (Range.mk 3 3).start)
    ∧ ((TurtleBoard.new_lazy.add_horizontal_line ⟨5, 5⟩ 2).edges = TurtleBoard.new_lazy.edges
      ∧ (TurtleBoard.new_lazy.add_horizontal_line ⟨5, 5⟩ 2).lazy_bounds
          = TurtleBoard.new_lazy.lazy_bounds
      ∧ (TurtleBoard.new_lazy.add_vertical_line 1 ⟨3, 3⟩).edges = TurtleBoard.new_lazy.edges
      ∧ (TurtleBoard.new_lazy.add_vertical_line 1 ⟨3, 3⟩).lazy_bounds
          = TurtleBoard.new_lazy.lazy_bounds) :=
  ⟨by decide, by decide,
    empty_range_insert_preserves_edges_and_mode TurtleBoard.new_lazy 1 2 ⟨5, 5⟩ ⟨3, 3⟩
      (by decide) (by decide)⟩

/-- C2 counterexample: on a strict grid, inserting the run `[1, 2)` at
`y = 0` and then the empty vertical run `[50, 50)` at `x = 100` leaves the
cached rectangle present but strictly larger than the minimal rectangle of
the single stored edge. -/
theorem strict_cache_not_minimal_after_empty_range :
    (applyOps TurtleBoard.new_strict [Op.addH ⟨1, 2⟩ 0, Op.addV 100 ⟨50, 50⟩]).bounds
        = some { min_x := 1, min_y := 0, max_x := 100, max_y := 50 }
    ∧ ¬ isMinimalRect
        (applyOps TurtleBoard.new_strict [Op.addH ⟨1, 2⟩ 0, Op.addV 100 ⟨50, 50⟩]).edges
        { min_x := 1, min_y := 0, max_x := 100, max_y := 50 } := by
  decide

/-- C3 counterexample: the same insertion sequence (a real run followed by
an empty-range run) makes a strict-mode grid and a lazy-mode grid report
different bounding rectangles. -/
theorem modes_report_different_bounds :
    (applyOps TurtleBoard.new_strict
        [Op.addH ⟨1, 2⟩ 0, Op.addV 100 ⟨50, 50⟩]).boundsMut.map (fun p => p.1)
      ≠ (applyOps TurtleBoard.new_lazy
        [Op.addH ⟨1, 2⟩ 0, Op.addV 100 ⟨50, 50⟩]).boundsMut.map (fun p => p.1) := by
  decide

/-- C4 counterexample: on a lazy grid with one edge and an empty cache, the
mutable bounds query stores the computed rectangle into the cache, so the
cached-rectangle field does not stay unchanged. -/
theorem lazy_bounds_call_mutates_cache :
    (TurtleBoard.new_lazy.add_horizontal_line ⟨1, 2⟩ 7).lazy_bounds = true
    ∧ (TurtleBoard.new_lazy.add_horizontal_line ⟨1, 2⟩ 7).edges ≠ []
    ∧ (TurtleBoard.new_lazy.add_horizontal_line ⟨1, 2⟩ 7).boundsMut.map
          (fun p => p.2.bounds)
        ≠ some (TurtleBoard.new_lazy.add_horizontal_line ⟨1, 2⟩ 7).bounds := by
  decide

/-- C6: a run-containment query answers `true` exactly when every unit edge
implied by the half-open range is present in the edge set; for an empty
range this holds vacuously, and a single missing edge forces `false`. -/
theorem contains_line_iff_all_edges_present (b : TurtleBoard) (x y : Int) (r : Range) :
    (b.contains_horizontal_line r y = true
      ↔ ∀ i : Int, r.start ≤ i → i < r.stop → Edge.Horizontal i y ∈ b.edges)
    ∧ (b.contains_vertical_line x r = true
      ↔ ∀ i : Int, r.start ≤ i → i < r.stop → Edge.Vertical x i ∈ b.edges) := by
  constructor
  · unfold TurtleBoard.contains_horizontal_line
    rw [Option.isNone_iff_eq_none, List.head?_eq_none_iff, List.filter_eq_nil_iff]
    constructor
    · intro h i h1 h2
      have := h i (mem_rangeList.mpr ⟨h1, h2⟩)
      simpa using this
    · intro h a ha
      have := h a (mem_rangeList.mp ha).1 (mem_rangeList.mp ha).2
      simpa using this
  · unfold TurtleBoard.contains_vertical_line
    rw [Option.isNone_iff_eq_none, List.head?_eq_none_iff, List.filter_eq_nil_iff]
    constructor
    · intro h i h1 h2
      have := h i (mem_rangeList.mpr ⟨h1, h2⟩)
      simpa using this
    · intro h a ha
      have := h a (mem_rangeList.mp ha).1 (mem_rangeList.mp ha).2
      simpa using this

/-- Witness for C6 at concrete inputs: a fully-inserted run answers `true`
and an empty range answers `true` vacuously. -/
theorem contains_line_iff_all_edges_present_witness :
    (TurtleBoard.new_lazy.add_horizontal_line ⟨0, 2⟩ 5).contains_horizontal_line ⟨0, 2⟩ 5 = true
    ∧ (TurtleBoard.new_lazy.add_horizontal_line ⟨0, 2⟩ 5).contains_vertical_line 9 ⟨7, 7⟩ = true :=
  ⟨(contains_line_iff_all_edges_present
      (TurtleBoard.new_lazy.add_horizontal_line ⟨0, 2⟩ 5) 9 5 ⟨0, 2⟩).1.mpr
    (by
      intro i h1 h2
      have h1' : (0 : Int) ≤ i := h1
      have h2' : i < 2 := h2
      have hi : i = 0 ∨ i = 1 := by omega
      rcases hi with rfl | rfl
      · decide
      · decide),
   (contains_line_iff_all_edges_present
      (TurtleBoard.new_lazy.add_horizontal_line ⟨0, 2⟩ 5) 9 5 ⟨7, 7⟩).2.mpr
    (by
      intro i h1 h2
      have h1' : (7 : Int) ≤ i := h1
      have h2' : i < 7 := h2
      omega)⟩

/-! ### State invariants of insertion sequences -/

theorem applyOps_cons (b : TurtleBoard) (op : Op) (ops : List Op) :
    applyOps b (op :: ops) = applyOps (applyOp b op) ops := rfl

theorem applyOp_edges (b : TurtleBoard) (op : Op) :
    (applyOp b op).edges = (opRun op).foldl (fun t e => hsInsert e t) b.edges := by
  cases op with
  | addH xs y => exact add_horizontal_line_edges b xs y
  | addV x ys => exact add_vertical_line_edges b x ys

theorem applyOp_lazy (b : TurtleBoard) (op : Op) :
    (applyOp b op).lazy_bounds = b.lazy_bounds := by
  cases op <;> rfl

theorem applyOp_bounds_of_lazy {b : TurtleBoard} (h : b.lazy_bounds = true) (op : Op) :
    (applyOp b op).bounds = none := by
  cases op with
  | addH xs y =>
      rw [show (applyOp b (Op.addH xs y)).bounds = (b.add_horizontal_line xs y).bounds from rfl,
        add_horizontal_line_bounds]
      unfold TurtleBoard.expand_to_fit
      simp [h]
  | addV x ys =>
      rw [show (applyOp b (Op.addV x ys)).bounds = (b.add_vertical_line x ys).bounds from rfl,
        add_vertical_line_bounds]
      unfold TurtleBoard.expand_to_fit
      simp [h]

theorem applyOp_bounds_of_strict_empty {b : TurtleBoard} (hlz : b.lazy_bounds = false)
    (he : b.edges = []) (op : Op) : (applyOp b op).bounds = some (opRect op) := by
  cases op with
  | addH xs y =>
      rw [show (applyOp b (Op.addH xs y)).bounds = (b.add_horizontal_line xs y).bounds from rfl,
        add_horizontal_line_bounds]
      unfold TurtleBoard.expand_to_fit
      simp [hlz, he, opRect]
  | addV x ys =>
      rw [show (applyOp b (Op.addV x ys)).bounds = (b.add_vertical_line x ys).bounds from rfl,
        add_vertical_line_bounds]
      unfold TurtleBoard.expand_to_fit
      simp [hlz, he, opRect]

theorem applyOp_bounds_of_strict_cached {b : TurtleBoard} (hlz : b.lazy_bounds = false)
    (hne : b.edges ≠ []) {r0 : Bounds} (hb : b.bounds = some r0) (op : Op) :
    (applyOp b op).bounds = some (Bounds.min_bound_2_bounds (opRect op) r0) := by
  cases op with
  | addH xs y =>
      rw [show (applyOp b (Op.addH xs y)).bounds = (b.add_horizontal_line xs y).bounds from rfl,
        add_horizontal_line_bounds]
      unfold TurtleBoard.expand_to_fit TurtleBoard.boundsMut
      simp [hlz, hne, hb, opRect]
  | addV x ys =>
      rw [show (applyOp b (Op.addV x ys)).bounds = (b.add_vertical_line x ys).bounds from rfl,
        add_vertical_line_bounds]
      unfold TurtleBoard.expand_to_fit TurtleBoard.boundsMut
      simp [hlz, hne, hb, opRect]

theorem lazy_state : ∀ (ops : List Op) (b : TurtleBoard),
    b.lazy_bounds = true → b.bounds = none →
    (applyOps b ops).lazy_bounds = true ∧ (applyOps b ops).bounds = none := by
  intro ops
  induction ops with
  | nil => intro b h1 h2; exact ⟨h1, h2⟩
  | cons op ops ih =>
      intro b h1 h2
      rw [applyOps_cons]
      exact ih (applyOp b op) (by rw [applyOp_lazy]; exact h1) (applyOp_bounds_of_lazy h1 op)

theorem strict_step {b : TurtleBoard} (op : Op) (hlz : b.lazy_bounds = false)
    (hinv : b.bounds = b.compute_bounds) (hne : opNonempty op) :
    (applyOp b op).bounds = (applyOp b op).compute_bounds := by
  have hcomp : (applyOp b op).compute_bounds
      = ((opRect op : Bounds) : WithBot Bounds) ⊔ edgesSup b.edges := by
    rw [compute_bounds_eq_edgesSup, applyOp_edges, edgesSup_foldl_hsInsert, opRun_edgesSup hne]
  rcases heq : b.edges with _ | ⟨c, l⟩
  · rw [applyOp_bounds_of_strict_empty hlz heq op, hcomp, heq, edgesSup_nil, sup_bot_eq]
    rfl
  · have hsne : edgesSup b.edges ≠ ⊥ := by
      rw [Ne, edgesSup_eq_bot_iff, heq]
      exact List.cons_ne_nil c l
    obtain ⟨r0, hr0⟩ := WithBot.ne_bot_iff_exists.mp hsne
    have hb0 : b.bounds = some r0 := by
      rw [hinv, compute_bounds_eq_edgesSup, ← hr0]
      rfl
    rw [applyOp_bounds_of_strict_cached hlz (by rw [heq]; exact List.cons_ne_nil c l) hb0 op,
      hcomp, ← hr0, ← WithBot.coe_sup]
    rfl

theorem strict_state : ∀ (ops : List Op), (∀ op ∈ ops, opNonempty op) →
    ∀ b : TurtleBoard, b.lazy_bounds = false → b.bounds = b.compute_bounds →
    (applyOps b ops).lazy_bounds = false
    ∧ (applyOps b ops).bounds = (applyOps b ops).compute_bounds := by
  intro ops
  induction ops with
  | nil => intro _ b h1 h2; exact ⟨h1, h2⟩
  | cons op ops ih =>
      intro hops b h1 h2
      rw [applyOps_cons]
      exact ih (fun o ho => hops o (List.mem_cons_of_mem op ho)) (applyOp b op)
        (by rw [applyOp_lazy]; exact h1)
        (strict_step op h1 h2 (hops op (List.mem_cons_self op ops)))

theorem applyOps_edges_congr : ∀ (ops : List Op) (b1 b2 : TurtleBoard),
    b1.edges = b2.edges → (applyOps b1 ops).edges = (applyOps b2 ops).edges := by
  intro ops
  induction ops with
  | nil => intro b1 b2 h; exact h
  | cons op ops ih =>
      intro b1 b2 h
      rw [applyOps_cons, applyOps_cons]
      refine ih _ _ ?_
      rw [applyOp_edges, applyOp_edges, h]

theorem boundsMut_fst_of_inv {b : TurtleBoard} (h : b.bounds = b.compute_bounds) :
    b.boundsMut.map (fun p => p.1) = b.compute_bounds := by
  unfold TurtleBoard.boundsMut
  cases hb : b.bounds with
  | none =>
      rw [Option.map_map]
      cases hc : b.compute_bounds with
      | none => rfl
      | some r => rfl
  | some r =>
      rw [← h, hb]
      rfl

theorem boundsMut_fst_of_none {b : TurtleBoard} (h : b.bounds = none) :
    b.boundsMut.map (fun p => p.1) = b.compute_bounds := by
  unfold TurtleBoard.boundsMut
  rw [h, Option.map_map]
  cases hc : b.compute_bounds with
  | none => rfl
  | some r => rfl

theorem listBoundsSup_eq_bot_iff {l : List Bounds} : listBoundsSup l = ⊥ ↔ l = [] := by
  cases l with
  | nil => simp [listBoundsSup_nil]
  | cons a l =>
      constructor
      · intro h
        rw [listBoundsSup_cons] at h
        exact absurd (sup_eq_bot_iff.mp h).1 WithBot.coe_ne_bot
      · intro h
        exact (List.cons_ne_nil a l h).elim

theorem listBoundsSup_minimal : ∀ (l : List Bounds) (r : Bounds),
    listBoundsSup l = ((r : Bounds) : WithBot Bounds) →
    (∀ b ∈ l, b ≤ r)
    ∧ (∃ b ∈ l, b.min_x = r.min_x) ∧ (∃ b ∈ l, b.min_y = r.min_y)
    ∧ (∃ b ∈ l, b.max_x = r.max_x) ∧ (∃ b ∈ l, b.max_y = r.max_y) := by
  intro l
  induction l with
  | nil =>
      intro r h
      rw [listBoundsSup_nil] at h
      exact absurd h WithBot.bot_ne_coe
  | cons a l ih =>
      intro r h
      rw [listBoundsSup_cons] at h
      cases hl : listBoundsSup l with
      | bot =>
          have hl' : listBoundsSup l = (⊥ : WithBot Bounds) := hl
          rw [hl', sup_bot_eq] at h
          have hr : a = r := WithBot.coe_injective h
          subst hr
          have hnil : l = [] := listBoundsSup_eq_bot_iff.mp hl'
          refine ⟨?_, ⟨a, List.mem_cons_self a l, rfl⟩, ⟨a, List.mem_cons_self a l, rfl⟩,
            ⟨a, List.mem_cons_self a l, rfl⟩, ⟨a, List.mem_cons_self a l, rfl⟩⟩
          intro b hb
          rcases List.mem_cons.mp hb with rfl | hbl
          · exact le_refl b
          · rw [hnil] at hbl
            cases hbl
      | coe m =>
          have hl' : listBoundsSup l = ((m : Bounds) : WithBot Bounds) := hl
          rw [hl', ← WithBot.coe_sup] at h
          have hr : a ⊔ m = r := WithBot.coe_injective h
          obtain ⟨hble, ⟨b1, hb1, he1⟩, ⟨b2, hb2, he2⟩, ⟨b3, hb3, he3⟩, ⟨b4, hb4, he4⟩⟩ :=
            ih m hl'
          have hminx : r.min_x = min a.min_x m.min_x := by rw [← hr]; rfl
          have hminy : r.min_y = min a.min_y m.min_y := by rw [← hr]; rfl
          have hmaxx : r.max_x = max a.max_x m.max_x := by rw [← hr]; rfl
          have hmaxy : r.max_y = max a.max_y m.max_y := by rw [← hr]; rfl
          refine ⟨?_, ?_, ?_, ?_, ?_⟩
          · intro b hbm
            rcases List.mem_cons.mp hbm with rfl | hbl
            · rw [← hr]; exact le_sup_left
            · rw [← hr]; exact le_sup_of_le_right (hble b hbl)
          · rcases min_choice a.min_x m.min_x with hc | hc
            · exact ⟨a, List.mem_cons_self a l, by rw [hminx, hc]⟩
            · exact ⟨b1, List.mem_cons_of_mem a hb1, by rw [hminx, hc]; exact he1⟩
          · rcases min_choice a.min_y m.min_y with hc | hc
            · exact ⟨a, List.mem_cons_self a l, by rw [hminy, hc]⟩
            · exact ⟨b2, List.mem_cons_of_mem a hb2, by rw [hminy, hc]; exact he2⟩
          · rcases max_choice a.max_x m.max_x with hc | hc
            · exact ⟨a, List.mem_cons_self a l, by rw [hmaxx, hc]⟩
            · exact ⟨b3, List.mem_cons_of_mem a hb3, by rw [hmaxx, hc]; exact he3⟩
          · rcases max_choice a.max_y m.max_y with hc | hc
            · exact ⟨a, List.mem_cons_self a l, by rw [hmaxy, hc]⟩
            · exact ⟨b4, List.mem_cons_of_mem a hb4, by rw [hmaxy, hc]; exact he4⟩

theorem compute_bounds_minimal {b : TurtleBoard} {r : Bounds}
    (h : b.compute_bounds = some r) : isMinimalRect b.edges r := by
  have h2 : listBoundsSup (b.edges.map Edge.bounds) = ((r : Bounds) : WithBot Bounds) := by
    rw [← min_bound_eq_listBoundsSup]
    exact h
  obtain ⟨hble, hx1, hx2, hx3, hx4⟩ := listBoundsSup_minimal _ r h2
  refine ⟨?_, ?_, ?_, ?_, ?_⟩
  · intro e he
    exact hble (Edge.bounds e) (List.mem_map_of_mem _ he)
  · obtain ⟨bb, hbb, hbe⟩ := hx1
    obtain ⟨e, he, rfl⟩ := List.mem_map.mp hbb
    exact ⟨e, he, hbe⟩
  · obtain ⟨bb, hbb, hbe⟩ := hx2
    obtain ⟨e, he, rfl⟩ := List.mem_map.mp hbb
    exact ⟨e, he, hbe⟩
  · obtain ⟨bb, hbb, hbe⟩ := hx3
    obtain ⟨e, he, rfl⟩ := List.mem_map.mp hbb
    exact ⟨e, he, hbe⟩
  · obtain ⟨bb, hbb, hbe⟩ := hx4
    obtain ⟨e, he, rfl⟩ := List.mem_map.mp hbb
    exact ⟨e, he, hbe⟩

theorem empty_ops_strict_state : ∀ (ops : List Op), (∀ o ∈ ops, opEmpty o) →
    ∀ b : TurtleBoard, b.lazy_bounds = false → b.edges = [] → ∀ op : Op, opEmpty op →
    (applyOps b (ops ++ [op])).edges = []
    ∧ (applyOps b (ops ++ [op])).bounds = some (opRect op) := by
  intro ops
  induction ops with
  | nil =>
      intro _ b hlz he op hop
      refine ⟨?_, ?_⟩
      · show (applyOp b op).edges = []
        rw [applyOp_edges, opRun_eq_nil hop, List.foldl_nil]
        exact he
      · show (applyOp b op).bounds = some (opRect op)
        exact applyOp_bounds_of_strict_empty hlz he op
  | cons o ops ih =>
      intro hall b hlz he op hop
      rw [List.cons_append, applyOps_cons]
      refine ih (fun o2 ho2 => hall o2 (List.mem_cons_of_mem o ho2)) (applyOp b o)
        (by rw [applyOp_lazy]; exact hlz) ?_ op hop
      rw [applyOp_edges, opRun_eq_nil (hall o (List.mem_cons_self o ops)), List.foldl_nil]
      exact he

/-! ### Claim theorems: bounds invariants -/

/-- C2 amended: on a strict grid built from a fresh board by insertion
calls whose ranges are all nonempty, whenever the cached bounding rectangle
is present it equals exactly the minimal axis-aligned rectangle
(componentwise min/max over every edge's local bounds) enclosing all edges
currently in the set.  (With empty-range calls allowed the claim fails, see
the counterexample.) -/
theorem strict_cache_minimal_of_nonempty_ranges (ops : List Op)
    (hops : ∀ op ∈ ops, opNonempty op) (r : Bounds)
    (hr : (applyOps TurtleBoard.new_strict ops).bounds = some r) :
    isMinimalRect (applyOps TurtleBoard.new_strict ops).edges r := by
  have hinv := (strict_state ops hops TurtleBoard.new_strict rfl rfl).2
  exact compute_bounds_minimal (by rw [← hinv]; exact hr)

/-- Witness for the amended C2 theorem at a concrete insertion sequence. -/
theorem strict_cache_minimal_of_nonempty_ranges_witness :
    (∀ op ∈ [Op.addH ⟨1, 2⟩ 0], opNonempty op)
    ∧ (applyOps TurtleBoard.new_strict [Op.addH ⟨1, 2⟩ 0]).bounds
        = some { min_x := 1, min_y := 0, max_x := 2, max_y := 0 }
    ∧ isMinimalRect (applyOps TurtleBoard.new_strict [Op.addH ⟨1, 2⟩ 0]).edges
        { min_x := 1, min_y := 0, max_x := 2, max_y := 0 } :=
  ⟨by decide, by decide,
    strict_cache_minimal_of_nonempty_ranges _ (by decide) _ (by decide)⟩

/-- C3 amended: for every sequence of insertion calls whose ranges are all
nonempty, a strict-mode grid and a lazy-mode grid built from the identical
sequence report identical bounding rectangles.  (With empty-range calls the
two modes can disagree, see the counterexample.) -/
theorem modes_report_equal_bounds_of_nonempty_ranges (ops : List Op)
    (hops : ∀ op ∈ ops, opNonempty op) :
    (applyOps TurtleBoard.new_strict ops).boundsMut.map (fun p => p.1)
      = (applyOps TurtleBoard.new_lazy ops).boundsMut.map (fun p => p.1) := by
  have hs := (strict_state ops hops TurtleBoard.new_strict rfl rfl).2
  have hl := (lazy_state ops TurtleBoard.new_lazy rfl rfl).2
  rw [boundsMut_fst_of_inv hs, boundsMut_fst_of_none hl]
  unfold TurtleBoard.compute_bounds
  rw [applyOps_edges_congr ops TurtleBoard.new_strict TurtleBoard.new_lazy rfl]

/-- Witness for the amended C3 theorem at a concrete insertion sequence. -/
theorem modes_report_equal_bounds_of_nonempty_ranges_witness :
    (∀ op ∈ [Op.addH ⟨1, 2⟩ 0], opNonempty op)
    ∧ (applyOps TurtleBoard.new_strict [Op.addH ⟨1, 2⟩ 0]).boundsMut.map (fun p => p.1)
        = (applyOps TurtleBoard.new_lazy [Op.addH ⟨1, 2⟩ 0]).boundsMut.map (fun p => p.1) :=
  ⟨by decide, modes_report_equal_bounds_of_nonempty_ranges _ (by decide)⟩

/-- C4 amended: on a lazy grid built by insertions from a fresh board, the
cache is empty, and a call to the mutable bounds query with a nonempty edge
set recomputes the rectangle from scratch over the full current edge set
and persists the recomputed value into the cache (rather than leaving the
cached-rectangle field unchanged). -/
theorem lazy_bounds_recomputes_and_persists (ops : List Op)
    (hne : (applyOps TurtleBoard.new_lazy ops).edges ≠ []) :
    ∃ r : Bounds,
      (applyOps TurtleBoard.new_lazy ops).compute_bounds = some r
      ∧ (applyOps TurtleBoard.new_lazy ops).boundsMut
          = some (r, { applyOps TurtleBoard.new_lazy ops with bounds := some r }) := by
  have hl := (lazy_state ops TurtleBoard.new_lazy rfl rfl).2
  have hb : edgesSup (applyOps TurtleBoard.new_lazy ops).edges ≠ ⊥ := by
    rw [Ne, edgesSup_eq_bot_iff]
    exact hne
  obtain ⟨r, hr⟩ := WithBot.ne_bot_iff_exists.mp hb
  have hc : (applyOps TurtleBoard.new_lazy ops).compute_bounds = some r := by
    rw [compute_bounds_eq_edgesSup, ← hr]
    rfl
  refine ⟨r, hc, ?_⟩
  unfold TurtleBoard.boundsMut
  rw [hl, hc]
  rfl

/-- Witness for the amended C4 theorem at a concrete insertion sequence. -/
theorem lazy_bounds_recomputes_and_persists_witness :
    (applyOps TurtleBoard.new_lazy [Op.addH ⟨1, 2⟩ 7]).edges ≠ []
    ∧ ∃ r : Bounds,
        (applyOps TurtleBoard.new_lazy [Op.addH ⟨1, 2⟩ 7]).compute_bounds = some r
        ∧ (applyOps TurtleBoard.new_lazy [Op.addH ⟨1, 2⟩ 7]).boundsMut
            = some (r,
                { applyOps TurtleBoard.new_lazy [Op.addH ⟨1, 2⟩ 7] with bounds := some r }) :=
  ⟨by decide, lazy_bounds_recomputes_and_persists _ (by decide)⟩

/-- C10: on a fresh strict grid on which only empty-range insertions have
been performed, the edge set is still empty, yet the bounds query succeeds
and returns the rectangle spanning the most recent empty run's endpoint
coordinates rather than failing with the empty-grid error. -/
theorem empty_range_inserts_bounds_from_last_run (ops : List Op) (op : Op)
    (hall : ∀ o ∈ ops ++ [op], opEmpty o) :
    (applyOps TurtleBoard.new_strict (ops ++ [op])).edges = []
    ∧ (applyOps TurtleBoard.new_strict (ops ++ [op])).boundsMut.map (fun p => p.1)
        = some (opRect op) := by
  have h := empty_ops_strict_state ops
    (fun o ho => hall o (List.mem_append_left _ ho)) TurtleBoard.new_strict rfl rfl op
    (hall op (List.mem_append_right _ (List.mem_cons_self op [])))
  refine ⟨h.1, ?_⟩
  unfold TurtleBoard.boundsMut
  rw [h.2]
  rfl

/-- Witness for C10: the vertical empty run `[4,1)` at `x = 9` followed by
the horizontal empty run `[5,3)` at `y = 7`; the bounds query returns
`min_x = 5, max_x = 3, min_y = max_y = 7` from the last call. -/
theorem empty_range_inserts_bounds_from_last_run_witness :
    (∀ o ∈ [Op.addV 9 ⟨4, 1⟩] ++ [Op.addH ⟨5, 3⟩ 7], opEmpty o)
    ∧ (applyOps TurtleBoard.new_strict ([Op.addV 9 ⟨4, 1⟩] ++ [Op.addH ⟨5, 3⟩ 7])).edges = []
    ∧ (applyOps TurtleBoard.new_strict
          ([Op.addV 9 ⟨4, 1⟩] ++ [Op.addH ⟨5, 3⟩ 7])).boundsMut.map (fun p => p.1)
        = some (opRect (Op.addH ⟨5, 3⟩ 7)) :=
  ⟨by decide, (empty_range_inserts_bounds_from_last_run _ _ (by decide)).1,
    (empty_range_inserts_bounds_from_last_run _ _ (by decide)).2⟩

end TurtleSpec
